import Mathlib

/-!
Verification of the `tree-sitter-validatetest` repository against its
natural-language specification.

Part 1 embeds the Python packaging shim
`bindings/python/tree_sitter_validatetest/__init__.py`: a filesystem is a
partial map from resource paths to text contents, `_get_query` reads one
packaged query file, and `importModule` performs the module's import-time
side effects (two eager file reads, binding of `HIGHLIGHTS_QUERY`,
`INJECTIONS_QUERY`, re-export of `language`, and the `__all__` list).

Part 2 models, from the specification's design sections (the parser core is
absent from the source tree), a line/record-oriented lexer+parser with error
recovery, an incremental reparse, and the tree invariants, and proves the
spec's testable properties about them.
-/

/-- A filesystem visible to `importlib.resources`: maps a path (a list of
components) to the text contents of the file there, or `none` when the file
is missing or unreadable. -/
def FS : Type := List String → Option String

/-- The path `tree_sitter_validatetest/queries/<filename>` that
`_get_query` resolves via `files("tree_sitter_validatetest") / "queries" /
filename`. -/
def queryPath (filename : String) : List String :=
  ["tree_sitter_validatetest", "queries", filename]

/-- Embedding of `_get_query(name, filename)`: resolves the packaged path
from `filename` alone and reads its text. Returns the contents together with
the log of paths read; a missing file propagates as an error carrying the
offending path. The `name` parameter is accepted and ignored, exactly as in
the source. -/
def _get_query (name filename : String) (fs : FS) :
    Except (List String) (String × List (List String)) :=
  match fs (queryPath filename) with
  | some contents => Except.ok (contents, [queryPath filename])
  | none => Except.error (queryPath filename)

/-- The attributes the module binds at import time. `language` is the object
imported from the precompiled `._binding` module, of an abstract type `α`
since its representation is opaque to the Python layer. -/
structure ModuleState (α : Type) where
  HIGHLIGHTS_QUERY : String
  INJECTIONS_QUERY : String
  language : α
  all : List String
deriving DecidableEq, Repr

/-- Embedding of the import-time execution of `__init__.py`: read
`queries/highlights.scm`, then `queries/injections.scm` (both eagerly, at
import), bind the module attributes and `__all__`, and pass the `language`
object from `._binding` through unchanged. Returns the module state together
with the log of file reads performed; a read failure aborts the import with
the failing path. -/
def importModule {α : Type} (fs : FS) (binding_language : α) :
    Except (List String) (ModuleState α × List (List String)) :=
  match _get_query "highlights" "highlights.scm" fs with
  | Except.error p => Except.error p
  | Except.ok (h, r1) =>
    match _get_query "injections" "injections.scm" fs with
    | Except.error p => Except.error p
    | Except.ok (i, r2) =>
      Except.ok
        ({ HIGHLIGHTS_QUERY := h
           INJECTIONS_QUERY := i
           language := binding_language
           all := ["HIGHLIGHTS_QUERY", "INJECTIONS_QUERY", "language"] },
         r1 ++ r2)

/-- A concrete filesystem holding both packaged query files, used to witness
the import-time theorems on explicit inputs. -/
def fsBoth : FS := fun p =>
  if p = queryPath "highlights.scm" then some "H"
  else if p = queryPath "injections.scm" then some "I"
  else none

/-- A concrete filesystem missing `queries/injections.scm`. -/
def fsNoInj : FS := fun p =>
  if p = queryPath "highlights.scm" then some "H" else none

lemma fsBoth_highlights : fsBoth (queryPath "highlights.scm") = some "H" := by
  decide

lemma fsBoth_injections : fsBoth (queryPath "injections.scm") = some "I" := by
  decide

/-- C1: importing the module reads exactly the two packaged query files, and
binds HIGHLIGHTS_QUERY to the full text of queries/highlights.scm and
INJECTIONS_QUERY to the full text of queries/injections.scm. -/
theorem claim_C1_two_query_resources {α : Type} (lang : α) (fs : FS)
    (h i : String)
    (hh : fs (queryPath "highlights.scm") = some h)
    (hi : fs (queryPath "injections.scm") = some i) :
    importModule fs lang =
      Except.ok
        ({ HIGHLIGHTS_QUERY := h
           INJECTIONS_QUERY := i
           language := lang
           all := ["HIGHLIGHTS_QUERY", "INJECTIONS_QUERY", "language"] },
         [queryPath "highlights.scm", queryPath "injections.scm"]) := by
  simp [importModule, _get_query, hh, hi]

theorem claim_C1_witness :
    fsBoth (queryPath "highlights.scm") = some "H" ∧
    fsBoth (queryPath "injections.scm") = some "I" ∧
    importModule fsBoth (0 : Nat) =
      Except.ok
        ({ HIGHLIGHTS_QUERY := "H"
           INJECTIONS_QUERY := "I"
           language := 0
           all := ["HIGHLIGHTS_QUERY", "INJECTIONS_QUERY", "language"] },
         [queryPath "highlights.scm", queryPath "injections.scm"]) :=
  ⟨by decide, by decide,
   claim_C1_two_query_resources 0 fsBoth "H" "I" (by decide) (by decide)⟩

/-- C2: whenever the import succeeds, the module attribute `language` is
exactly the `language` object obtained from `._binding`, passed through
without wrapping or modification. -/
theorem claim_C2_language_passthrough {α : Type} (lang : α) (fs : FS)
    (st : ModuleState α) (reads : List (List String))
    (h : importModule fs lang = Except.ok (st, reads)) :
    st.language = lang := by
  unfold importModule _get_query at h
  cases hh : fs (queryPath "highlights.scm") with
  | none => simp [hh] at h
  | some hc =>
    cases hi : fs (queryPath "injections.scm") with
    | none => simp [hh, hi] at h
    | some ic =>
      simp [hh, hi] at h
      cases h with
      | intro h1 _ => rw [← h1]

theorem claim_C2_witness :
    ({ HIGHLIGHTS_QUERY := "H"
       INJECTIONS_QUERY := "I"
       language := (7 : Nat)
       all := ["HIGHLIGHTS_QUERY", "INJECTIONS_QUERY", "language"] } :
      ModuleState Nat).language = 7 :=
  claim_C2_language_passthrough 7 fsBoth _
    [queryPath "highlights.scm", queryPath "injections.scm"]
    (by simp [importModule, _get_query, fsBoth_highlights, fsBoth_injections])

/-- C3: whenever the import succeeds, the declared public interface
`__all__` is exactly the three names HIGHLIGHTS_QUERY, INJECTIONS_QUERY and
language, in that order, and nothing else. -/
theorem claim_C3_all_exact {α : Type} (lang : α) (fs : FS)
    (st : ModuleState α) (reads : List (List String))
    (h : importModule fs lang = Except.ok (st, reads)) :
    st.all = ["HIGHLIGHTS_QUERY", "INJECTIONS_QUERY", "language"] := by
  unfold importModule _get_query at h
  cases hh : fs (queryPath "highlights.scm") with
  | none => simp [hh] at h
  | some hc =>
    cases hi : fs (queryPath "injections.scm") with
    | none => simp [hh, hi] at h
    | some ic =>
      simp [hh, hi] at h
      cases h with
      | intro h1 _ => rw [← h1]

theorem claim_C3_witness :
    ({ HIGHLIGHTS_QUERY := "H"
       INJECTIONS_QUERY := "I"
       language := (0 : Nat)
       all := ["HIGHLIGHTS_QUERY", "INJECTIONS_QUERY", "language"] } :
      ModuleState Nat).all =
      ["HIGHLIGHTS_QUERY", "INJECTIONS_QUERY", "language"] :=
  claim_C3_all_exact 0 fsBoth _
    [queryPath "highlights.scm", queryPath "injections.scm"]
    (by simp [importModule, _get_query, fsBoth_highlights, fsBoth_injections])

/-- C8: the `name` parameter of `_get_query` has no effect on its result;
the result depends only on `filename` and the filesystem. -/
theorem claim_C8_name_irrelevant (n1 n2 f : String) (fs : FS) :
    _get_query n1 f fs = _get_query n2 f fs := rfl

/-- C9: if either packaged query file is missing, the import itself fails,
propagating the failing path; the reads happen eagerly during import, so the
failure is raised at import time. -/
theorem claim_C9_missing_file_fails {α : Type} (lang : α) (fs : FS)
    (h : fs (queryPath "highlights.scm") = none ∨
         fs (queryPath "injections.scm") = none) :
    ∃ p, importModule fs lang = Except.error p ∧ fs p = none := by
  cases hh : fs (queryPath "highlights.scm") with
  | none =>
    exact ⟨queryPath "highlights.scm", by simp [importModule, _get_query, hh], hh⟩
  | some hc =>
    cases h with
    | inl h1 => rw [hh] at h1; exact absurd h1 (by simp)
    | inr h2 =>
      exact ⟨queryPath "injections.scm",
        by simp [importModule, _get_query, hh, h2], h2⟩

theorem claim_C9_witness :
    (fsNoInj (queryPath "highlights.scm") = none ∨
     fsNoInj (queryPath "injections.scm") = none) ∧
    ∃ p, importModule fsNoInj (0 : Nat) = Except.error p ∧ fsNoInj p = none :=
  ⟨Or.inr (by decide), claim_C9_missing_file_fails 0 fsNoInj (Or.inr (by decide))⟩

/-- C10: the import result depends only on the contents of the two packaged
query files: two filesystems agreeing on those two paths produce identical
module states (in particular equal HIGHLIGHTS_QUERY and INJECTIONS_QUERY
strings) and identical read logs. -/
theorem claim_C10_noninterference {α : Type} (lang : α) (fs1 fs2 : FS)
    (hh : fs1 (queryPath "highlights.scm") = fs2 (queryPath "highlights.scm"))
    (hi : fs1 (queryPath "injections.scm") = fs2 (queryPath "injections.scm")) :
    importModule fs1 lang = importModule fs2 lang := by
  unfold importModule _get_query
  rw [hh, hi]

theorem claim_C10_witness :
    (fsBoth (queryPath "highlights.scm") =
      (fun p => if p = queryPath "highlights.scm" then some "H"
                else if p = queryPath "injections.scm" then some "I"
                else some "junk") (queryPath "highlights.scm")) ∧
    importModule fsBoth (0 : Nat) =
      importModule
        (fun p => if p = queryPath "highlights.scm" then some "H"
                  else if p = queryPath "injections.scm" then some "I"
                  else some "junk") (0 : Nat) :=
  ⟨by decide,
   claim_C10_noninterference 0 fsBoth _ (by decide) (by decide)⟩

/-!
Part 2: the parser core. The repository ships no parser sources (only the
packaging shim above), so the definitions below are modelled from the
specification's design sections: a line/record-oriented test-description
language, a lexer that splits the input into line tokens, a parser that
builds a flat-arena tree with error nodes and recovery positions, and an
incremental reparse that re-lexes only the edited region while reusing the
unaffected leading and trailing line nodes (with byte ranges shifted).
-/

namespace VTest

/-- Modelled from the spec: the lexer of the absent parser core. Splits the
input into lines at newline bytes, accumulating the current line; the
result always has one entry per newline plus a final (possibly empty)
trailing line. -/
def slAux : List Char → List Char → List (List Char)
  | [], acc => [acc]
  | c :: rest, acc =>
      if c = '\n' then acc :: slAux rest [] else slAux rest (acc ++ [c])

/-- Modelled from the spec: lexing a whole input from offset 0. -/
def splitLines (t : List Char) : List (List Char) := slAux t []

/-- The trailing incomplete line the lexer is holding after consuming `t`
starting from accumulator `acc`. -/
def restLine : List Char → List Char → List Char
  | [], acc => acc
  | c :: rest, acc =>
      if c = '\n' then restLine rest [] else restLine rest (acc ++ [c])

/-- Total byte length of a list of lines, counting one separator byte after
each line. -/
def sumLens (ls : List (List Char)) : Nat :=
  (ls.map (fun l => l.length + 1)).sum

/-- Length of a prefix of `t` that ends exactly after a newline byte
(0 when `t` has no newline): a restart point for incremental re-lexing. -/
def cutLen : List Char → Nat
  | [] => 0
  | c :: rest =>
      if cutLen rest = 0 then (if c = '\n' then 1 else 0)
      else cutLen rest + 1

/-- Index of the first newline byte of `t`, if any. -/
def fstNL : List Char → Option Nat
  | [] => none
  | c :: rest => if c = '\n' then some 0 else (fstNL rest).map (· + 1)

/-- Modelled from the spec: node kinds of the absent grammar. `Record` is a
key-value line, `Blank` an empty line, `ErrorNode` marks a recovery point,
`Root` spans the whole input. -/
inductive NodeKind where
  | Root
  | Record
  | Blank
  | ErrorNode
deriving DecidableEq, Repr

/-- Modelled from the spec: a SyntaxNode of the flat node arena: kind, byte
range `[start, stop)`, children as indices into the owning tree's arena, and
an error flag. -/
structure SyntaxNode where
  kind : NodeKind
  start : Nat
  stop : Nat
  children : List Nat
  isError : Bool
deriving DecidableEq, Repr

/-- Modelled from the spec: a Tree owning the node arena; `root` is the
designated root index and `text` the parsed input. -/
structure Tree where
  nodes : List SyntaxNode
  root : Nat
  text : List Char
deriving DecidableEq, Repr

/-- Kind assigned to one lexed line: blank, a record (contains a `:`
key-value separator), or an error requiring recovery. -/
def lineKind (l : List Char) : NodeKind :=
  if l = [] then NodeKind.Blank
  else if l.contains ':' then NodeKind.Record
  else NodeKind.ErrorNode

/-- A leaf node for one line with an explicit byte range. -/
def leafNode (a b : Nat) (l : List Char) : SyntaxNode :=
  { kind := lineKind l, start := a, stop := b, children := [],
    isError := lineKind l == NodeKind.ErrorNode }

/-- Leaf nodes for lines each of which is followed by a further line: the
byte range of each includes its trailing newline byte. -/
def innerNodes (off : Nat) : List (List Char) → List SyntaxNode
  | [] => []
  | l :: ls =>
      leafNode off (off + l.length + 1) l ::
        innerNodes (off + l.length + 1) ls

/-- Modelled from the spec: leaf nodes for a nonempty tail of lines; the
final line's range has no trailing newline byte, every earlier line's range
includes it, so consecutive ranges tile the input contiguously. -/
def lineNodes (off : Nat) : List (List Char) → List SyntaxNode
  | [] => []
  | [l] => [leafNode off (off + l.length) l]
  | l :: l2 :: ls =>
      leafNode off (off + l.length + 1) l ::
        lineNodes (off + l.length + 1) (l2 :: ls)

/-- The root node: spans the whole input, its children are all leaf
indices. -/
def rootNode (leaves : List SyntaxNode) (text : List Char) : SyntaxNode :=
  { kind := NodeKind.Root, start := 0, stop := text.length,
    children := List.range leaves.length, isError := false }

/-- Assemble the arena: the leaves in input order followed by the root. -/
def mkTree (leaves : List SyntaxNode) (text : List Char) : Tree :=
  { nodes := leaves ++ [rootNode leaves text],
    root := leaves.length,
    text := text }

/-- Modelled from the spec: the absent `parse` entry point. Total: lexes the
input into lines, builds one leaf per line (error lines become error nodes
rather than failures) and returns the tree together with the list of
positions where recovery occurred. -/
def parse (text : List Char) : Tree × List Nat :=
  let leaves := lineNodes 0 (splitLines text)
  (mkTree leaves text, (leaves.filter (·.isError)).map (·.start))

/-- Modelled from the spec: a byte-range edit: `oldLen` bytes starting at
`start` are replaced by `newText`. -/
structure Edit where
  start : Nat
  oldLen : Nat
  newText : List Char
deriving DecidableEq, Repr

/-- Modelled from the spec: applying an edit to the source text. -/
def applyEdit (text : List Char) (E : Edit) : List Char :=
  text.take E.start ++ E.newText ++ text.drop (E.start + E.oldLen)

/-- Shift a reused node's byte range by the edit's length delta
(`+ d - oldL` as a single exact Nat computation for nodes located at or
after the edited region). -/
def shiftNode (d oldL : Nat) (n : SyntaxNode) : SyntaxNode :=
  { n with start := n.start + d - oldL, stop := n.stop + d - oldL }

/-- Modelled from the spec: the absent incremental reparse. Leaf nodes for
lines entirely before the edited region are reused unchanged; leaf nodes
for lines entirely after it are reused with shifted ranges; only the lines
intersecting the edit are re-lexed and re-parsed. -/
def incremental_reparse (T : Tree) (E : Edit) : Tree :=
  let text := T.text
  let s := E.start
  let e := s + E.oldLen
  let post := text.drop e
  let k := cutLen (text.take s)
  let m := ((splitLines (text.take k)).dropLast).length
  let keptFront := T.nodes.take m
  let newText := applyEdit text E
  match fstNL post with
  | none =>
      mkTree (keptFront ++ lineNodes k (splitLines (newText.drop k))) newText
  | some i =>
      let cutB := e + i + 1
      let m2 := ((splitLines (text.take cutB)).dropLast).length
      let keptBack :=
        ((T.nodes.dropLast).drop m2).map (shiftNode E.newText.length E.oldLen)
      let mid := ((text.take s).drop k) ++ E.newText ++ (post.take (i + 1))
      mkTree (keptFront ++ innerNodes k ((splitLines mid).dropLast) ++ keptBack)
        newText

/-- Consecutive children's byte ranges meet left to right: each child ends
no later than the next begins. -/
def chainStops : List SyntaxNode → Bool
  | [] => true
  | [_] => true
  | a :: b :: rest => decide (a.stop ≤ b.start) && chainStops (b :: rest)

/-- The spec's tree invariant at one node: every child's range is contained
in the parent's range, each child's range is well formed, and the children
appear in left-to-right order with pairwise non-overlapping ranges. -/
def wfChildren (p : SyntaxNode) (cs : List SyntaxNode) : Bool :=
  (cs.all fun c =>
    decide (p.start ≤ c.start) && decide (c.start ≤ c.stop) &&
      decide (c.stop ≤ p.stop)) &&
  chainStops cs

/-- Resolve a node's child indices in its owning tree's arena. -/
def childNodes (T : Tree) (n : SyntaxNode) : List SyntaxNode :=
  n.children.filterMap (fun i => T.nodes.get? i)

/-- The spec's tree invariant, at every node of the arena. -/
def treeInv (T : Tree) : Bool :=
  T.nodes.all (fun n => wfChildren n (childNodes T n))

/-- A list of nodes tiles the byte interval `[off, stop)`: ranges are
contiguous, in order, and exactly cover it. -/
def tiles : Nat → Nat → List SyntaxNode → Prop
  | off, stop, [] => off = stop
  | off, stop, n :: ns => n.start = off ∧ n.start ≤ n.stop ∧ tiles n.stop stop ns

/-- The bytes of `text` covered by a node's range. -/
def sliceOf (text : List Char) (n : SyntaxNode) : List Char :=
  (text.drop n.start).take (n.stop - n.start)

/-- The leaves of a tree: the arena nodes without children. -/
def leafNodesOf (T : Tree) : List SyntaxNode :=
  T.nodes.filter (fun n => n.children.isEmpty)

/-- Modelled from the spec: a valid program of the line/record language is
one every line of which is blank or a `key: value` record, so that no error
node is needed. -/
def validProgram (text : List Char) : Bool :=
  (splitLines text).all (fun l => l.isEmpty || l.contains ':')

/-! Lemmas about the lexer. -/

lemma slAux_ne_nil : ∀ (t acc : List Char), slAux t acc ≠ [] := by
  intro t
  induction t with
  | nil => intro acc; simp [slAux]
  | cons c rest ih =>
    intro acc
    by_cases h : c = '\n' <;> simp [slAux, h] <;> exact ih _

lemma dropLast_cons_ne_nil {α : Type} (a : α) {l : List α} (h : l ≠ []) :
    (a :: l).dropLast = a :: l.dropLast := by
  cases l with
  | nil => exact absurd rfl h
  | cons b bs => rfl

lemma slAux_append (b : List Char) :
    ∀ (a acc : List Char),
      slAux (a ++ b) acc = (slAux a acc).dropLast ++ slAux b (restLine a acc) := by
  intro a
  induction a with
  | nil => intro acc; simp [slAux, restLine]
  | cons c rest ih =>
    intro acc
    by_cases h : c = '\n'
    · simp only [List.cons_append, slAux, restLine, h, if_pos]
      rw [show rest.append b = rest ++ b from rfl, ih []]
      rw [dropLast_cons_ne_nil acc (slAux_ne_nil rest [])]
      simp
    · simp only [List.cons_append, slAux, restLine, h, if_neg, if_false]
      exact ih (acc ++ [c])

lemma slAux_eq (a acc : List Char) :
    slAux a acc = (slAux a acc).dropLast ++ [restLine a acc] := by
  have h := slAux_append [] a acc
  simpa [slAux] using h

lemma restLine_append (b : List Char) :
    ∀ (a acc : List Char), restLine (a ++ b) acc = restLine b (restLine a acc) := by
  intro a
  induction a with
  | nil => intro acc; simp [restLine]
  | cons c rest ih =>
    intro acc
    by_cases h : c = '\n' <;> simp [restLine, h] <;> exact ih _

lemma restLine_nl (a acc : List Char) : restLine (a ++ ['\n']) acc = [] := by
  rw [restLine_append]
  simp [restLine]

lemma sumLens_append (l1 l2 : List (List Char)) :
    sumLens (l1 ++ l2) = sumLens l1 + sumLens l2 := by
  simp [sumLens]

lemma sumLens_slAux :
    ∀ (a acc : List Char), sumLens (slAux a acc) = a.length + acc.length + 1 := by
  intro a
  induction a with
  | nil => intro acc; simp [slAux, sumLens]
  | cons c rest ih =>
    intro acc
    by_cases h : c = '\n'
    · simp only [slAux, h, if_pos]
      have : sumLens (acc :: slAux rest []) = (acc.length + 1) + sumLens (slAux rest []) := by
        simp [sumLens]
      rw [this, ih []]
      simp only [List.length_cons, List.length_nil]
      omega
    · simp only [slAux, h, if_neg, if_false]
      rw [ih (acc ++ [c])]
      simp only [List.length_append, List.length_cons, List.length_nil]
      omega

lemma splitLines_sumLens (t : List Char) :
    sumLens (splitLines t) = t.length + 1 := by
  have h := sumLens_slAux t []
  simpa [splitLines] using h

lemma sumLens_dropLast_of_nl (A : List Char) (h : ∃ a0, A = a0 ++ ['\n']) :
    sumLens ((splitLines A).dropLast) = A.length := by
  obtain ⟨a0, rfl⟩ := h
  have he := slAux_eq (a0 ++ ['\n']) []
  rw [restLine_nl] at he
  have hs : sumLens (splitLines (a0 ++ ['\n'])) = (a0 ++ ['\n']).length + 1 :=
    splitLines_sumLens _
  rw [splitLines] at *
  conv at hs => rw [he]
  rw [sumLens_append] at hs
  have : sumLens [([] : List Char)] = 1 := by simp [sumLens]
  omega

/-! Lemmas about leaf-node construction and the incremental cut points. -/

lemma lineNodes_cons (off : Nat) (l : List Char) {ls : List (List Char)}
    (h : ls ≠ []) :
    lineNodes off (l :: ls) =
      leafNode off (off + l.length + 1) l ::
        lineNodes (off + l.length + 1) ls := by
  cases ls with
  | nil => exact absurd rfl h
  | cons l2 ls2 => rfl

lemma innerNodes_length : ∀ (ls : List (List Char)) (off : Nat),
    (innerNodes off ls).length = ls.length := by
  intro ls
  induction ls with
  | nil => intro off; rfl
  | cons l ls ih => intro off; simp [innerNodes, ih]

lemma lineNodes_append {ls2 : List (List Char)} (h : ls2 ≠ []) :
    ∀ (ls1 : List (List Char)) (off : Nat),
      lineNodes off (ls1 ++ ls2) =
        innerNodes off ls1 ++ lineNodes (off + sumLens ls1) ls2 := by
  intro ls1
  induction ls1 with
  | nil => intro off; simp [innerNodes, sumLens]
  | cons l ls1 ih =>
    intro off
    have hne : ls1 ++ ls2 ≠ [] := by
      intro hc
      exact h (List.append_eq_nil.mp hc).2
    rw [List.cons_append, lineNodes_cons off l hne, ih]
    have hsum : sumLens (l :: ls1) = l.length + 1 + sumLens ls1 := by
      simp [sumLens]
    rw [hsum, innerNodes]
    simp only [List.cons_append]
    have harith : off + l.length + 1 + sumLens ls1 =
        off + (l.length + 1 + sumLens ls1) := by omega
    rw [harith]

lemma splitLines_ne_nil (t : List Char) : splitLines t ≠ [] :=
  slAux_ne_nil t []

lemma cutLen_le : ∀ t : List Char, cutLen t ≤ t.length := by
  intro t
  induction t with
  | nil => simp [cutLen]
  | cons c rest ih =>
    rw [cutLen]
    by_cases h0 : cutLen rest = 0
    · by_cases hn : c = '\n' <;> simp [h0, hn]
    · simp only [h0, if_neg, if_false, List.length_cons]
      omega

lemma cutLen_spec : ∀ t : List Char,
    cutLen t = 0 ∨ ∃ a, t.take (cutLen t) = a ++ ['\n'] := by
  intro t
  induction t with
  | nil => left; rfl
  | cons c rest ih =>
    rw [cutLen]
    by_cases h0 : cutLen rest = 0
    · by_cases hn : c = '\n'
      · right
        refine ⟨[], ?_⟩
        simp [h0, hn]
      · left; simp [h0, hn]
    · simp only [h0, if_neg, if_false]
      right
      cases ih with
      | inl h => exact absurd h h0
      | inr h =>
        obtain ⟨a, ha⟩ := h
        exact ⟨c :: a, by simp [List.take_cons, ha]⟩

lemma fstNL_spec : ∀ (t : List Char) (i : Nat), fstNL t = some i →
    i < t.length ∧ ∃ b, t.take (i + 1) = b ++ ['\n'] := by
  intro t
  induction t with
  | nil => intro i h; simp [fstNL] at h
  | cons c rest ih =>
    intro i h
    by_cases hn : c = '\n'
    · rw [fstNL, if_pos hn] at h
      cases h
      exact ⟨by simp, [], by simp [hn]⟩
    · rw [fstNL, if_neg hn] at h
      cases hj : fstNL rest with
      | none => rw [hj] at h; simp at h
      | some j =>
        rw [hj] at h
        simp at h
        obtain ⟨hjlt, b, hb⟩ := ih j hj
        refine ⟨by simp; omega, c :: b, ?_⟩
        rw [← h]
        simp [List.take_cons, hb]

/-- Decomposition of a full parse's leaves at a cut point `c` that lies just
after a newline byte (or at 0): the leaves split into the nodes of the lines
fully before `c` and the nodes of the lines from `c` on. -/
lemma parse_split (text : List Char) (c : Nat) (hc : c ≤ text.length)
    (h : c = 0 ∨ ∃ a, text.take c = a ++ ['\n']) :
    lineNodes 0 (splitLines text) =
      innerNodes 0 ((splitLines (text.take c)).dropLast) ++
        lineNodes c (splitLines (text.drop c)) := by
  cases h with
  | inl h0 =>
    subst h0
    simp [splitLines, slAux, innerNodes]
  | inr hnl =>
    have hsplit : splitLines text =
        (splitLines (text.take c)).dropLast ++ splitLines (text.drop c) := by
      conv_lhs => rw [← List.take_append_drop c text]
      rw [splitLines, slAux_append]
      obtain ⟨a, ha⟩ := hnl
      rw [ha, restLine_nl]
      rfl
    rw [hsplit, lineNodes_append (splitLines_ne_nil (text.drop c))]
    have hsum : sumLens ((splitLines (text.take c)).dropLast) = c := by
      rw [sumLens_dropLast_of_nl _ hnl, List.length_take]
      omega
    rw [hsum]
    simp

lemma shift_leaf (d oldL a b : Nat) (l : List Char) :
    shiftNode d oldL (leafNode a b l) = leafNode (a + d - oldL) (b + d - oldL) l :=
  rfl

lemma map_shift (d oldL : Nat) : ∀ (ls : List (List Char)) (off : Nat),
    oldL ≤ off →
      (lineNodes off ls).map (shiftNode d oldL) = lineNodes (off + d - oldL) ls := by
  intro ls
  induction ls with
  | nil => intro off h; rfl
  | cons l ls ih =>
    intro off h
    cases ls with
    | nil =>
      simp only [lineNodes, List.map_cons, List.map_nil, shift_leaf]
      have e1 : off + l.length + d - oldL = off + d - oldL + l.length := by omega
      rw [e1]
    | cons l2 ls2 =>
      rw [lineNodes_cons off l (by simp), lineNodes_cons (off + d - oldL) l (by simp),
        List.map_cons, ih (off + l.length + 1) (by omega), shift_leaf]
      have e1 : off + l.length + 1 + d - oldL = off + d - oldL + l.length + 1 := by
        omega
      rw [e1]

/-! The incremental/full reparse equivalence. -/

lemma parse_fst (t : List Char) :
    (parse t).1 = mkTree (lineNodes 0 (splitLines t)) t := rfl

lemma mkTree_text (L : List SyntaxNode) (t : List Char) : (mkTree L t).text = t :=
  rfl

lemma mkTree_nodes (L : List SyntaxNode) (t : List Char) :
    (mkTree L t).nodes = L ++ [rootNode L t] := rfl

lemma rootNode_children (L : List SyntaxNode) (t : List Char) :
    (rootNode L t).children = List.range L.length := rfl

lemma rootNode_isError (L : List SyntaxNode) (t : List Char) :
    (rootNode L t).isError = false := rfl

lemma dropLast_snoc {α : Type} (A : List α) (x : α) : (A ++ [x]).dropLast = A := by
  simp

lemma splitLines_append_nl (A B : List Char) (h : ∃ a, A = a ++ ['\n']) :
    splitLines (A ++ B) = (splitLines A).dropLast ++ splitLines B := by
  obtain ⟨a, rfl⟩ := h
  rw [splitLines, splitLines, slAux_append, restLine_nl]
  rfl

/-- The reusable front of the arena: the leaf nodes of the lines fully
before a newline-aligned cut `c`. -/
lemma leaves_take (t : List Char) (c : Nat) (x : SyntaxNode) (hc : c ≤ t.length)
    (h : c = 0 ∨ ∃ a, t.take c = a ++ ['\n']) :
    (lineNodes 0 (splitLines t) ++ [x]).take
        ((splitLines (t.take c)).dropLast).length =
      innerNodes 0 ((splitLines (t.take c)).dropLast) := by
  rw [parse_split t c hc h, List.append_assoc,
    ← innerNodes_length ((splitLines (t.take c)).dropLast) 0, List.take_left]

/-- The reusable back of the arena: the leaf nodes of the lines starting at
a newline-aligned cut `c`. -/
lemma leaves_drop (t : List Char) (c : Nat) (hc : c ≤ t.length)
    (h : c = 0 ∨ ∃ a, t.take c = a ++ ['\n']) :
    (lineNodes 0 (splitLines t)).drop
        ((splitLines (t.take c)).dropLast).length =
      lineNodes c (splitLines (t.drop c)) := by
  rw [parse_split t c hc h,
    ← innerNodes_length ((splitLines (t.take c)).dropLast) 0, List.drop_left]

/-- Incremental reparse of a tree produced by `parse` agrees with a full
parse of the edited text. -/
lemma reparse_eq (t0 : List Char) (E : Edit) :
    incremental_reparse (parse t0).1 E = (parse (applyEdit t0 E)).1 := by
  rw [parse_fst, parse_fst]
  simp only [incremental_reparse, mkTree_text, mkTree_nodes]
  have hkle : cutLen (t0.take E.start) ≤ min E.start t0.length := by
    have h1 := cutLen_le (t0.take E.start)
    rwa [List.length_take] at h1
  have hks : cutLen (t0.take E.start) ≤ E.start := le_trans hkle (min_le_left _ _)
  have hklen : cutLen (t0.take E.start) ≤ t0.length :=
    le_trans hkle (min_le_right _ _)
  have hcut : cutLen (t0.take E.start) = 0 ∨
      ∃ a, t0.take (cutLen (t0.take E.start)) = a ++ ['\n'] := by
    cases cutLen_spec (t0.take E.start) with
    | inl h => exact Or.inl h
    | inr h =>
      obtain ⟨a, ha⟩ := h
      rw [List.take_take, min_eq_left hks] at ha
      exact Or.inr ⟨a, ha⟩
  have hnewtake : (applyEdit t0 E).take (cutLen (t0.take E.start)) =
      t0.take (cutLen (t0.take E.start)) := by
    rw [applyEdit, List.append_assoc,
      List.take_append_of_le_length (by rw [List.length_take]; exact hkle),
      List.take_take, min_eq_left hks]
  have hknew : cutLen (t0.take E.start) ≤ (applyEdit t0 E).length := by
    simp only [applyEdit, List.length_append, List.length_take, List.length_drop]
    omega
  have hcutnew : cutLen (t0.take E.start) = 0 ∨
      ∃ a, (applyEdit t0 E).take (cutLen (t0.take E.start)) = a ++ ['\n'] := by
    rw [hnewtake]; exact hcut
  split
  next hfn =>
    rw [leaves_take t0 (cutLen (t0.take E.start)) _ hklen hcut,
      parse_split (applyEdit t0 E) (cutLen (t0.take E.start)) hknew hcutnew,
      hnewtake]
  next i hfn =>
    obtain ⟨hilt, b, hb⟩ := fstNL_spec _ i hfn
    rw [List.length_drop] at hilt
    have hel : E.start + E.oldLen + i + 1 ≤ t0.length := by omega
    have hcutB : ∃ a, t0.take (E.start + E.oldLen + i + 1) = a ++ ['\n'] := by
      refine ⟨t0.take (E.start + E.oldLen) ++ b, ?_⟩
      rw [show E.start + E.oldLen + i + 1 = E.start + E.oldLen + (i + 1) by omega,
        List.take_add, hb, List.append_assoc]
    have hmid : ∃ a,
        ((t0.take E.start).drop (cutLen (t0.take E.start))) ++ E.newText ++
          ((t0.drop (E.start + E.oldLen)).take (i + 1)) = a ++ ['\n'] := by
      refine ⟨((t0.take E.start).drop (cutLen (t0.take E.start))) ++ E.newText ++ b,
        ?_⟩
      rw [hb]
      simp [List.append_assoc]
    have hpost : (t0.drop (E.start + E.oldLen)).take (i + 1) ++
        t0.drop (E.start + E.oldLen + i + 1) = t0.drop (E.start + E.oldLen) := by
      have h2 : t0.drop (E.start + E.oldLen + i + 1) =
          (t0.drop (E.start + E.oldLen)).drop (i + 1) := by
        rw [List.drop_drop]
        rfl
      rw [h2, List.take_append_drop]
    have hdropk : (applyEdit t0 E).drop (cutLen (t0.take E.start)) =
        (((t0.take E.start).drop (cutLen (t0.take E.start))) ++ E.newText ++
          ((t0.drop (E.start + E.oldLen)).take (i + 1))) ++
          t0.drop (E.start + E.oldLen + i + 1) := by
      rw [applyEdit, List.append_assoc,
        List.drop_append_of_le_length (by rw [List.length_take]; exact hkle)]
      conv_lhs => rw [← hpost]
      simp [List.append_assoc]
    have hmidlen : sumLens ((splitLines
        (((t0.take E.start).drop (cutLen (t0.take E.start))) ++ E.newText ++
          ((t0.drop (E.start + E.oldLen)).take (i + 1)))).dropLast) =
        (E.start - cutLen (t0.take E.start)) + E.newText.length + (i + 1) := by
      rw [sumLens_dropLast_of_nl _ hmid]
      simp only [List.length_append, List.length_take, List.length_drop]
      omega
    have hoff : cutLen (t0.take E.start) +
        ((E.start - cutLen (t0.take E.start)) + E.newText.length + (i + 1)) =
        E.start + E.oldLen + i + 1 + E.newText.length - E.oldLen := by omega
    rw [leaves_take t0 (cutLen (t0.take E.start)) _ hklen hcut,
      dropLast_snoc,
      leaves_drop t0 (E.start + E.oldLen + i + 1) hel (Or.inr hcutB),
      map_shift E.newText.length E.oldLen _ (E.start + E.oldLen + i + 1) (by omega),
      parse_split (applyEdit t0 E) (cutLen (t0.take E.start)) hknew hcutnew,
      hnewtake, hdropk,
      splitLines_append_nl _ _ hmid,
      lineNodes_append (splitLines_ne_nil _), hmidlen, hoff,
      List.append_assoc]

/-! Tiling of the input by the leaf ranges, and the tree invariant. -/

lemma sumLens_cons (l : List Char) (ls : List (List Char)) :
    sumLens (l :: ls) = l.length + 1 + sumLens ls := by
  simp [sumLens]

lemma sumLens_pos (ls : List (List Char)) (h : ls ≠ []) : 1 ≤ sumLens ls := by
  cases ls with
  | nil => exact absurd rfl h
  | cons l ls => rw [sumLens_cons]; omega

lemma lineNodes_tiles : ∀ (ls : List (List Char)) (off : Nat), ls ≠ [] →
    tiles off (off + sumLens ls - 1) (lineNodes off ls) := by
  intro ls
  induction ls with
  | nil => intro off h; exact absurd rfl h
  | cons l ls ih =>
    intro off _
    cases ls with
    | nil =>
      rw [lineNodes, sumLens_cons]
      refine ⟨rfl, ?_, ?_⟩
      · show off ≤ off + l.length
        omega
      · show off + l.length = off + (l.length + 1 + sumLens []) - 1
        have : sumLens ([] : List (List Char)) = 0 := rfl
        omega
    | cons l2 ls2 =>
      rw [lineNodes_cons off l (by simp), sumLens_cons]
      refine ⟨rfl, ?_, ?_⟩
      · show off ≤ off + l.length + 1
        omega
      · have hpos := sumLens_pos (l2 :: ls2) (by simp)
        have harith : off + (l.length + 1 + sumLens (l2 :: ls2)) - 1 =
            (off + l.length + 1) + sumLens (l2 :: ls2) - 1 := by omega
        rw [harith]
        exact ih (off + l.length + 1) (by simp)

lemma tiles_le : ∀ (ns : List SyntaxNode) (off stop : Nat),
    tiles off stop ns → off ≤ stop := by
  intro ns
  induction ns with
  | nil => intro off stop h; exact le_of_eq h
  | cons n ns ih =>
    intro off stop h
    obtain ⟨h1, h2, h3⟩ := h
    have := ih n.stop stop h3
    omega

lemma tiles_chainStops : ∀ (ns : List SyntaxNode) (off stop : Nat),
    tiles off stop ns → chainStops ns = true := by
  intro ns
  induction ns with
  | nil => intro off stop _; rfl
  | cons n ns ih =>
    intro off stop h
    obtain ⟨h1, h2, h3⟩ := h
    cases ns with
    | nil => rfl
    | cons m ms =>
      have hm1 : m.start = n.stop := h3.1
      rw [chainStops, ih n.stop stop h3]
      simp [hm1]

lemma tiles_bounds : ∀ (ns : List SyntaxNode) (off stop : Nat),
    tiles off stop ns → ∀ n ∈ ns,
      off ≤ n.start ∧ n.start ≤ n.stop ∧ n.stop ≤ stop := by
  intro ns
  induction ns with
  | nil => intro off stop _ n hn; simp at hn
  | cons m ms ih =>
    intro off stop h n hn
    obtain ⟨h1, h2, h3⟩ := h
    rcases List.mem_cons.mp hn with rfl | hmem
    · exact ⟨le_of_eq h1.symm, h2, tiles_le ms n.stop stop h3⟩
    · obtain ⟨hb1, hb2, hb3⟩ := ih m.stop stop h3 n hmem
      exact ⟨by omega, hb2, hb3⟩

lemma tiles_join (text : List Char) : ∀ (ns : List SyntaxNode) (off stop : Nat),
    tiles off stop ns →
      ((ns.map (sliceOf text)).flatten) = (text.drop off).take (stop - off) := by
  intro ns
  induction ns with
  | nil =>
    intro off stop h
    rw [show off = stop from h]
    simp
  | cons n ns ih =>
    intro off stop h
    obtain ⟨h1, h2, h3⟩ := h
    have hle := tiles_le ns n.stop stop h3
    rw [List.map_cons, List.flatten_cons, ih n.stop stop h3, sliceOf, h1]
    have hdd : (text.drop off).drop (n.stop - off) = text.drop n.stop := by
      rw [List.drop_drop, show off + (n.stop - off) = n.stop by omega]
    rw [← hdd, ← List.take_add,
      show n.stop - off + (stop - n.stop) = stop - off by omega]

lemma splitLines_sumLens_tiles (t : List Char) :
    tiles 0 t.length (lineNodes 0 (splitLines t)) := by
  have h := lineNodes_tiles (splitLines t) 0 (splitLines_ne_nil t)
  rw [splitLines_sumLens] at h
  simpa using h

lemma lineNodes_children : ∀ (ls : List (List Char)) (off : Nat)
    (n : SyntaxNode), n ∈ lineNodes off ls → n.children = [] := by
  intro ls
  induction ls with
  | nil => intro off n h; simp [lineNodes] at h
  | cons l ls ih =>
    intro off n h
    cases ls with
    | nil =>
      simp only [lineNodes, List.mem_singleton] at h
      subst h
      rfl
    | cons l2 ls2 =>
      rw [lineNodes_cons off l (by simp)] at h
      rcases List.mem_cons.mp h with rfl | hmem
      · rfl
      · exact ih (off + l.length + 1) n hmem

lemma lineNodes_ne_nil : ∀ (ls : List (List Char)) (off : Nat), ls ≠ [] →
    lineNodes off ls ≠ [] := by
  intro ls off h
  cases ls with
  | nil => exact absurd rfl h
  | cons l ls =>
    cases ls with
    | nil => simp [lineNodes]
    | cons l2 ls2 => rw [lineNodes_cons off l (by simp)]; simp

lemma filterMap_get_range {α : Type} (A B : List α) :
    (List.range A.length).filterMap (fun i => (A ++ B).get? i) = A := by
  induction A with
  | nil => simp
  | cons a A ih =>
    rw [List.length_cons, List.range_succ_eq_map, List.filterMap_cons]
    have h0 : ((a :: A ++ B).get? 0) = some a := rfl
    rw [h0, List.filterMap_map]
    have hfun : ((fun i => (a :: A ++ B).get? i) ∘ Nat.succ) =
        fun i => (A ++ B).get? i := by
      funext i
      rfl
    rw [hfun, ih]

lemma treeInv_parse (t : List Char) : treeInv (parse t).1 = true := by
  rw [parse_fst, treeInv, mkTree_nodes, List.all_append, Bool.and_eq_true]
  constructor
  · rw [List.all_eq_true]
    intro n hn
    have hch := lineNodes_children (splitLines t) 0 n hn
    rw [childNodes, hch]
    rfl
  · rw [List.all_eq_true]
    intro n hn
    rw [List.mem_singleton] at hn
    subst hn
    rw [childNodes, rootNode_children]
    simp only [mkTree_nodes]
    rw [filterMap_get_range, wfChildren, Bool.and_eq_true]
    constructor
    · rw [List.all_eq_true]
      intro c hc
      obtain ⟨hb1, hb2, hb3⟩ :=
        tiles_bounds _ 0 t.length (splitLines_sumLens_tiles t) c hc
      simp [rootNode, hb1, hb2, hb3]
    · exact tiles_chainStops _ 0 t.length (splitLines_sumLens_tiles t)

/-! Remaining helper lemmas for the spec's testable properties. -/

lemma parse_snd (t : List Char) :
    (parse t).2 =
      ((lineNodes 0 (splitLines t)).filter (·.isError)).map (·.start) := rfl

lemma mkTree_root (L : List SyntaxNode) (t : List Char) :
    (mkTree L t).root = L.length := rfl

lemma leafNode_noerr (a b : Nat) (l : List Char)
    (h : (l.isEmpty || l.contains ':') = true) :
    (leafNode a b l).isError = false := by
  show (lineKind l == NodeKind.ErrorNode) = false
  cases l with
  | nil => rfl
  | cons c cs =>
    have hc : (c :: cs).contains ':' = true := by simpa using h
    rw [lineKind, if_neg (by simp), if_pos hc]
    rfl

lemma lineNodes_noerr : ∀ (ls : List (List Char)) (off : Nat),
    (∀ l ∈ ls, (l.isEmpty || l.contains ':') = true) →
    (lineNodes off ls).filter (·.isError) = [] := by
  intro ls
  induction ls with
  | nil => intro off _; rfl
  | cons l ls ih =>
    intro off h
    cases ls with
    | nil =>
      rw [lineNodes]
      simp [List.filter_cons, leafNode_noerr off (off + l.length) l (h l (by simp))]
    | cons l2 ls2 =>
      rw [lineNodes_cons off l (by simp)]
      simp only [List.filter_cons,
        leafNode_noerr off (off + l.length + 1) l (h l (by simp)),
        Bool.false_eq_true, if_false]
      exact ih (off + l.length + 1) (fun x hx => h x (by simp [hx]))

lemma leafNodesOf_parse (t : List Char) :
    leafNodesOf (parse t).1 = lineNodes 0 (splitLines t) := by
  rw [parse_fst, leafNodesOf, mkTree_nodes, List.filter_append]
  have h1 : (lineNodes 0 (splitLines t)).filter (fun n => n.children.isEmpty) =
      lineNodes 0 (splitLines t) := by
    apply List.filter_eq_self.mpr
    intro n hn
    rw [lineNodes_children (splitLines t) 0 n hn]
    rfl
  have hx : (rootNode (lineNodes 0 (splitLines t)) t).children.isEmpty = false := by
    rw [rootNode_children]
    have hne := lineNodes_ne_nil (splitLines t) 0 (splitLines_ne_nil t)
    cases hL : lineNodes 0 (splitLines t) with
    | nil => exact absurd hL hne
    | cons a as =>
      rw [List.length_cons, List.range_succ_eq_map]
      rfl
  have h2 : [rootNode (lineNodes 0 (splitLines t)) t].filter
      (fun n => n.children.isEmpty) = [] := by
    simp [List.filter_cons, hx]
  rw [h1, h2, List.append_nil]

/-- C4: parse is total: on every input it returns a tree (with a valid root
index into the arena) together with the list of positions where error
recovery occurred — one per error node, at that node's start position; it
never fails outright. -/
theorem claim_C4_parse_total (text : List Char) :
    ∃ (t : Tree) (recov : List Nat),
      parse text = (t, recov) ∧ t.root < t.nodes.length ∧
      recov = (t.nodes.filter (·.isError)).map (·.start) := by
  refine ⟨(parse text).1, (parse text).2, rfl, ?_, ?_⟩
  · rw [parse_fst, mkTree_root, mkTree_nodes, List.length_append]
    simp
  · rw [parse_snd, parse_fst, mkTree_nodes, List.filter_append]
    have h2 : [rootNode (lineNodes 0 (splitLines text)) text].filter
        (·.isError) = [] := by
      simp [List.filter_cons, rootNode_isError]
    rw [h2, List.append_nil]

/-- C5: for every tree produced by a parse and every byte-range edit,
incremental reparse yields exactly the tree of a full parse of the edited
text. -/
theorem claim_C5_incremental_equiv (T : Tree) (t0 : List Char)
    (hT : T = (parse t0).1) (E : Edit) :
    incremental_reparse T E = (parse (applyEdit T.text E)).1 := by
  subst hT
  show incremental_reparse (parse t0).1 E = (parse (applyEdit t0 E)).1
  exact reparse_eq t0 E

theorem claim_C5_witness :
    incremental_reparse (parse "a:1\nb:2\nxx".toList).1
        { start := 4, oldLen := 3, newText := "c:9\nd".toList } =
      (parse (applyEdit (parse "a:1\nb:2\nxx".toList).1.text
        { start := 4, oldLen := 3, newText := "c:9\nd".toList })).1 :=
  claim_C5_incremental_equiv _ "a:1\nb:2\nxx".toList rfl
    { start := 4, oldLen := 3, newText := "c:9\nd".toList }

/-- C6: a valid program parses with zero error nodes, and concatenating the
byte ranges of the tree's leaves in order reconstructs exactly the input. -/
theorem claim_C6_valid_programs (P : List Char) (h : validProgram P = true) :
    (parse P).1.nodes.filter (·.isError) = [] ∧
    ((leafNodesOf (parse P).1).map (sliceOf P)).flatten = P := by
  have hall : ∀ l ∈ splitLines P, (l.isEmpty || l.contains ':') = true :=
    List.all_eq_true.mp h
  constructor
  · rw [parse_fst, mkTree_nodes, List.filter_append,
      lineNodes_noerr (splitLines P) 0 hall]
    simp [List.filter_cons, rootNode_isError]
  · rw [leafNodesOf_parse,
      tiles_join P (lineNodes 0 (splitLines P)) 0 P.length
        (splitLines_sumLens_tiles P)]
    simp

theorem claim_C6_witness :
    validProgram "a:1\n\nbb:2".toList = true ∧
    ((parse "a:1\n\nbb:2".toList).1.nodes.filter (·.isError) = [] ∧
      ((leafNodesOf (parse "a:1\n\nbb:2".toList).1).map
        (sliceOf "a:1\n\nbb:2".toList)).flatten = "a:1\n\nbb:2".toList) :=
  ⟨by decide, claim_C6_valid_programs "a:1\n\nbb:2".toList (by decide)⟩

/-- C7: in every tree produced by parse or by incremental reparse, every
node's children have pairwise non-overlapping byte ranges, each contained in
the parent's range, in left-to-right order. -/
theorem claim_C7_tree_invariant (t0 : List Char) (E : Edit) :
    treeInv (parse t0).1 = true ∧
    treeInv (incremental_reparse (parse t0).1 E) = true := by
  refine ⟨treeInv_parse t0, ?_⟩
  rw [reparse_eq]
  exact treeInv_parse (applyEdit t0 E)

end VTest
